import Mathlib

/-!
# Verification of the `dancer` fake-data generator

Shallow embedding, in Lean 4, of the constraint-aware row-synthesis engine
of the `dancer` repository (`src/dancer/mysql.py`, `src/dancer/fake.py`),
together with proofs and refutations of the specification claims about it.

Conventions of the embedding:
* Python `Optional[...]` values become `Option`.
* Python dictionaries keyed by strings become association lists
  `List (String × _)` (Python dicts preserve insertion order, as do these).
* Database I/O, `random.*` and the Faker collaborator are modelled by
  explicit oracle parameters: a query result or a random draw becomes an
  input to the Lean function, so every possible outcome of the Python
  program corresponds to some choice of oracle value.
-/

namespace Dancer

/-! ## Columns and tables (`mysql.py`, classes `Column` and `Table`)

Only the attributes the claims depend on are carried.  `default` comes
from the catalog and may be SQL NULL (Python `None`), hence `Option`;
`on_update` is `meta.extra.replace('on update ', '')`, always a string. -/

structure MColumn where
  name : String
  auto_increment : Bool
  default : Option String
  on_update : String
  /-- `referenced_to`: outbound FK edge `(table_name, column_name)`. -/
  referenced_to : Option (String × String)
  deriving Repr, DecidableEq

/-- `Column.fillable` (mysql.py lines 79-82):
`not self.auto_increment and 'CURRENT_TIMESTAMP' not in [self.default, self.on_update]`. -/
def MColumn.fillable (c : MColumn) : Bool :=
  !c.auto_increment &&
    !(c.default == some "CURRENT_TIMESTAMP" || c.on_update == "CURRENT_TIMESTAMP")

structure MTable where
  name : String
  columns : List MColumn
  deriving Repr, DecidableEq

/-- `Table.fillable_fields` (mysql.py lines 224-229): names of the columns
whose `fillable()` is true, in declared order. -/
def MTable.fillable_fields (t : MTable) : List String :=
  (t.columns.filter MColumn.fillable).map MColumn.name

/-- `Table.fillable_columns` (mysql.py lines 282-287). -/
def MTable.fillable_columns (t : MTable) : List MColumn :=
  t.columns.filter MColumn.fillable

/-- `Table.is_fillable` (mysql.py lines 289-293): scans the column list and
returns `True` on the first name match, `False` when the loop ends. -/
def MTable.is_fillable (t : MTable) (column_name : String) : Bool :=
  t.columns.any (fun c => c.name == column_name)

/-- `Table.__contains__` (mysql.py lines 335-339): `next(filter(...), None)`
over the column list, then `is not None`. -/
def MTable.containsColumn (t : MTable) (column_name : String) : Bool :=
  (t.columns.find? (fun c => c.name == column_name)).isSome

/-- `FakeRow.insert_query` (fake.py lines 178-190): the column list of the
emitted INSERT, i.e. the names between `(` and `)` after the table name;
the query names exactly `table.fillable_fields()`. -/
def insertColumnList (t : MTable) : List String :=
  t.fillable_fields

/-- `FakeRow.insert_query` (fake.py lines 178-190), the full statement text
(whitespace normalised to single spaces).  `fields` are the keys of the
synthesized row, in insertion order. -/
def insert_query (dbName : String) (t : MTable) (fields : List String) : String :=
  "INSERT INTO `" ++ dbName ++ "`.`" ++ t.name ++ "` (`" ++
    String.intercalate "`, `" t.fillable_fields ++ "`) VALUES (" ++
    String.intercalate ", " (fields.map (fun n => ":" ++ n)) ++ ")"

/-- The spec's fillability predicate, stated from its own words: "a column
is *fillable* iff it is not auto-increment AND neither its DEFAULT nor its
ON UPDATE expression is `CURRENT_TIMESTAMP`". -/
def specFillable (c : MColumn) : Prop :=
  ¬c.auto_increment ∧ c.default ≠ some "CURRENT_TIMESTAMP" ∧
    c.on_update ≠ "CURRENT_TIMESTAMP"

instance (c : MColumn) : Decidable (specFillable c) := by
  unfold specFillable; infer_instance

/-- A concrete table exercising C2: an auto-increment `id`, a
`CURRENT_TIMESTAMP`-defaulted `created_at`, a `CURRENT_TIMESTAMP`
on-update `updated_at`, and a plain `name`. -/
def trialTable : MTable :=
  { name := "t"
    columns :=
      [ { name := "id", auto_increment := true, default := none,
          on_update := "auto_increment", referenced_to := none },
        { name := "created_at", auto_increment := false,
          default := some "CURRENT_TIMESTAMP", on_update := "",
          referenced_to := none },
        { name := "updated_at", auto_increment := false, default := none,
          on_update := "CURRENT_TIMESTAMP", referenced_to := none },
        { name := "name", auto_increment := false, default := none,
          on_update := "", referenced_to := none } ] }

/-- The plain (fillable) column of `trialTable`. -/
def plainNameColumn : MColumn :=
  { name := "name", auto_increment := false, default := none,
    on_update := "", referenced_to := none }

/-! ## `UniqueForeignScope` (mysql.py lines 596-632)

Values drawn from parent columns are modelled as integers; a parent tuple
(`Dict[str, Any]` keyed by child column names) is an association list, and
`rows_set` maps each unique-index name to its bucket of candidate tuples. -/

abbrev Val := Int

abbrev ScopeRow := List (String × Val)

abbrev RowsSet := List (String × List ScopeRow)

/-- `UniqueForeignScope.get_column_values` (mysql.py lines 600-607): walk
every bucket in order and collect `row[column.name]` of the rows that have
the key, skipping values already collected. -/
def get_column_values (rs : RowsSet) (colName : String) : List Val :=
  rs.foldl
    (fun vals kr =>
      kr.2.foldl
        (fun vals row =>
          match List.lookup colName row with
          | some v => if v ∈ vals then vals else vals ++ [v]
          | none => vals)
        vals)
    []

/-- `UniqueForeignScope.get_random_value_on_column` (mysql.py lines
609-616).  The outcome of `random.randint(0, length - 1)` is modelled by
the oracle `idx`, reduced mod the length so that every in-range draw is
realisable. -/
def get_random_value_on_column (rs : RowsSet) (colName : String)
    (idx : Nat) : Option Val :=
  let values := get_column_values rs colName
  if h : 0 < values.length then
    some (values.get ⟨idx % values.length, Nat.mod_lt _ h⟩)
  else
    none

/-- `UniqueForeignScope.scope_column_value` (mysql.py lines 618-626): in
every bucket keep exactly the rows with `column.name in row and
row[column.name] == value`. -/
def scope_column_value (rs : RowsSet) (colName : String) (v : Val) : RowsSet :=
  rs.map (fun kr => (kr.1, kr.2.filter (fun row => List.lookup colName row == some v)))

/-- `UniqueForeignScope.random_scope_column` (mysql.py lines 628-632):
draw a value; when it is not `None`, narrow the scope to it.  Returns the
drawn value and the scope state after the call. -/
def random_scope_column (rs : RowsSet) (colName : String) (idx : Nat) :
    Option Val × RowsSet :=
  match get_random_value_on_column rs colName idx with
  | some v => (some v, scope_column_value rs colName v)
  | none => (none, rs)

/-- The narrowing the claim (and §4.3 of the spec) describes: drop only
the tuples that have a *differing* value at the column; a tuple with no
entry for the column is retained. -/
def claimNarrow (bucket : List ScopeRow) (colName : String) (v : Val) :
    List ScopeRow :=
  bucket.filter (fun row =>
    match List.lookup colName row with
    | none => true
    | some w => w == v)

/-- Concrete scope for C4: one bucket holding a tuple with an `a` entry
and a tuple with no entry at all. -/
def c4Scope : RowsSet := [("u", [[("a", (1 : Val))], []])]

/-! ## `TableUniqueConstraints._where_foreign_values_not_in`
(mysql.py lines 504-523)

The WHERE text is `(p1<>:v1 AND p2<>:v2 AND …) AND (…) AND …` — one
parenthesised clause per DISTINCT tuple already present in the child
table, each clause ranging over the FK-bearing columns of the unique
index (`continue` skips columns without `referenced_to`).  Here the
predicate is embedded semantically: an existing child tuple is a function
from child column names to values, a candidate is a function from
referenced `(table, column)` pairs to values, and SQL `<>` is `≠`. -/

/-- One clause `(p1<>:v1 AND p2<>:v2 AND …)` for the existing child tuple
`r`, evaluated at the candidate parent tuple `cand`. -/
def notInClause (cols : List MColumn) (r : String → Val)
    (cand : String × String → Val) : Bool :=
  cols.all (fun c =>
    match c.referenced_to with
    | none => true
    | some rc => !(cand rc == r c.name))

/-- The full WHERE predicate built by `_where_foreign_values_not_in`: the
conjunction of the per-tuple clauses over every existing child tuple. -/
def whereForeignValuesNotIn (cols : List MColumn)
    (existing : List (String → Val)) (cand : String × String → Val) : Bool :=
  existing.all (fun r => notInClause cols r cand)

/-- Concrete data for the C5 witness: one FK-bearing column `p1`
referencing `parent.id`. -/
def c5Column : MColumn :=
  { name := "p1", auto_increment := false, default := none,
    on_update := "", referenced_to := some ("parent", "id") }

/-- Concrete existing child tuples for the C5 witness. -/
def c5Existing : List (String → Val) := [fun _ => 5]

/-- Concrete candidate parent tuple for the C5 witness: componentwise
equal to the one existing child tuple. -/
def c5Cand : String × String → Val := fun _ => 5

/-! ## Catalog `Type` parsing (mysql.py, `Column.__init__` lines 42-59)

The parser is embedded on `List Char` so that the split/trim operations
can be reasoned about by structural induction.  `eval('[' + size + ']')`
is not modelled: the parse result carries the raw text between the chosen
`(` and the final `)`, which is all the claim speaks about. -/

/-- Python `s.split(sep, 1)` when `sep` occurs, as the pair of the text
before the first occurrence and the text after it; `none` when `sep` does
not occur (where the code's 2-element unpacking would raise). -/
def splitOnFirstChar (c : Char) : List Char → Option (List Char × List Char)
  | [] => none
  | x :: xs =>
    if x = c then some ([], xs)
    else
      match splitOnFirstChar c xs with
      | none => none
      | some (l, r) => some (x :: l, r)

/-- Python `s.rsplit(sep, 1)` when `sep` occurs: text before the last
occurrence and text after it. -/
def splitOnLastChar (c : Char) (cs : List Char) :
    Option (List Char × List Char) :=
  match splitOnFirstChar c cs.reverse with
  | none => none
  | some (r, l) => some (l.reverse, r.reverse)

/-- Python `str.strip()`. -/
def trimChars (cs : List Char) : List Char :=
  ((cs.dropWhile Char.isWhitespace).reverse.dropWhile Char.isWhitespace).reverse

/-- Python `str.lower()` (ASCII suffices for catalog type names). -/
def toLowerChars (cs : List Char) : List Char :=
  cs.map Char.toLower

structure ParsedType where
  base : List Char
  sizeText : Option (List Char)
  unsigned : Bool
  deriving Repr, DecidableEq

/-- Lines 42-50 of `Column.__init__`: strip, `rsplit(' ', 1)`; when a
space exists the remainder is ALWAYS the left segment, and `unsigned` is
set iff the right segment lowercases to `unsigned`; then strip again.
(`self.unsigned = None` is modelled as `false`.) -/
def stripUnsignedStage (s : List Char) : List Char × Bool :=
  let t0 := trimChars s
  match splitOnLastChar ' ' t0 with
  | none => (trimChars t0, false)
  | some (l, r) => (trimChars l, toLowerChars r = "unsigned".toList)

/-- Lines 52-59 of `Column.__init__`: when the remainder ends in `)`,
split the remainder minus its final `)` on the FIRST `(`
(`.split('(', 1)`); the base type is the stripped, lowercased left part
and the size text is the right part.  Otherwise the whole remainder,
lowercased, is the base type.  `none` models the `ValueError` raised when
the remainder ends in `)` but contains no `(`. -/
def parseColumnType (s : List Char) : Option ParsedType :=
  let st := stripUnsignedStage s
  if st.1.getLast? = some ')' then
    match splitOnFirstChar '(' st.1.dropLast with
    | none => none
    | some (l, r) => some ⟨toLowerChars (trimChars l), some r, st.2⟩
  else
    some ⟨toLowerChars st.1, none, st.2⟩

/-- The parse the claim (and §4.1 of the spec) describes: identical except
that the split is on the LAST `(` (`rsplit`-style). -/
def specParseColumnType (s : List Char) : Option ParsedType :=
  let st := stripUnsignedStage s
  if st.1.getLast? = some ')' then
    match splitOnLastChar '(' st.1.dropLast with
    | none => none
    | some (l, r) => some ⟨toLowerChars (trimChars l), some r, st.2⟩
  else
    some ⟨toLowerChars st.1, none, st.2⟩

/-- A single-quote character, built by code point to keep the source free
of quoted literals. -/
def sq : Char := Char.ofNat 39

/-- The catalog type text `enum('a(b','c')` — an enum whose first literal
contains a parenthesis, so the whole text contains two `(`. -/
def c8Input : List Char :=
  ['e', 'n', 'u', 'm', '('] ++ [sq, 'a', '(', 'b', sq] ++ [','] ++
    [sq, 'c', sq] ++ [')']

/-! ## The generation driver (`fake.py`, `FakeFactory.generate_fake_rows`
lines 341-367 and `FakeFactory.generate` lines 369-392)

For the driver only three per-table data matter: the table name, the
ordered key list of `references_group_by_table()` (the names of the
tables this table's FK columns point at), and `num_of_rows`.  A `GState`
carries `pre_produces_ref_tables` (`memo`, an association list keyed by
table name — sound because a `Database` holds distinct table names and
`database[name]` resolves a name to the unique `Table` object) and the
`trace` of row-synthesis calls, one entry (the table's name) per
`new_fake_row` invocation; each invocation issues at most one INSERT, in
call order, so the relative order of trace entries is the relative order
of the INSERTs.  Python's unbounded recursion is modelled with `fuel`:
`none` models the run dying with `RecursionError` (or a failed
`database[name]` lookup raising `ColumnNotFoundException`). -/

structure GTable where
  name : String
  /-- the keys of `references_group_by_table()`, in order. -/
  parents : List String
  num_of_rows : Nat
  deriving Repr, DecidableEq

structure GState where
  /-- `pre_produces_ref_tables`: memoized tables (name, row count). -/
  memo : List (String × Nat)
  /-- one entry per `new_fake_row` call, in execution order. -/
  trace : List String
  deriving Repr, DecidableEq

/-- `Database.__getitem__` (mysql.py lines 423-429): first table with the
given name; `none` models `ColumnNotFoundException`. -/
def dbLookup (db : List GTable) (tableName : String) : Option GTable :=
  db.find? (fun t => t.name == tableName)

/-- The `for _ in range(fake_table.num_of_rows)` loop of
`generate_fake_rows` (fake.py lines 362-365): one `new_fake_row` call per
requested row. -/
def pushRows (st : GState) (t : GTable) : GState :=
  { st with trace := st.trace ++ List.replicate t.num_of_rows t.name }

/-- `self.pre_produces_ref_tables[_table] = _rows` (fake.py line 350). -/
def memoWrite (st : GState) (tableName : String) (rows : Nat) : GState :=
  { st with memo := (tableName, rows) :: st.memo }

/-- The `for table_name in table.references_group_by_table().keys()` loop
of `generate_fake_rows` (fake.py lines 346-350), parameterized by the
recursive `generate_fake_rows` call `rec`: look each referenced table up,
skip self-references, otherwise generate the parent's rows and memoize
them under the parent's identity. -/
def genParentsF (db : List GTable)
    (rec : GState → GTable → Option (GState × Nat)) (selfName : String) :
    List String → GState → Option GState
  | [], st => some st
  | p :: rest, st =>
    match dbLookup db p with
    | none => none
    | some pt =>
      if selfName = pt.name then genParentsF db rec selfName rest st
      else
        match rec st pt with
        | none => none
        | some (st2, n) =>
          genParentsF db rec selfName rest (memoWrite st2 pt.name n)

/-- `FakeFactory.generate_fake_rows` (fake.py lines 341-367): return the
memoized rows if present; otherwise recursively generate every referenced
parent table (skipping self-references) and memoize each parent, then
synthesize `num_of_rows` rows for this table.  The freshly generated
table itself is NOT memoized here — only its callers memoize it. -/
def genRows (db : List GTable) : Nat → GState → GTable → Option (GState × Nat)
  | 0, _, _ => none
  | fuel + 1, st, t =>
    match List.lookup t.name st.memo with
    | some n => some (st, n)
    | none =>
      match genParentsF db (fun st' t' => genRows db fuel st' t')
          t.name t.parents st with
      | none => none
      | some st2 => some (pushRows st2 t, t.num_of_rows)

/-- The parents loop at a given fuel level. -/
def genParents (db : List GTable) (fuel : Nat) (selfName : String)
    (ps : List String) (st : GState) : Option GState :=
  genParentsF db (fun st' t' => genRows db fuel st' t') selfName ps st

/-- The `for table in self.database` loop of `FakeFactory.generate`
(fake.py lines 388-390): the returned rows are discarded and the table is
not memoized by this loop. -/
def genAll (db : List GTable) (fuel : Nat) :
    List GTable → GState → Option GState
  | [], st => some st
  | t :: rest, st =>
    match genRows db fuel st t with
    | none => none
    | some (st2, _) => genAll db fuel rest st2

/-- `FakeFactory.generate` (fake.py lines 369-392), from the empty memo
and empty trace. -/
def generate (db : List GTable) (fuel : Nat) : Option GState :=
  genAll db fuel db { memo := [], trace := [] }

/-- The FK edge relation of the schema, restricted as the driver walks
it: `gstep db a b` holds when some table named `a` references table `b`
and the reference is not a self-reference. -/
def gstep (db : List GTable) (a b : String) : Prop :=
  ∃ ta ∈ db, ta.name = a ∧ b ∈ ta.parents ∧ b ≠ a

/-- C1 counterexample schema: `p` with no FK, `c` referencing `p`, in
catalog order `p, c`, one row each. -/
def parentT : GTable := { name := "p", parents := [], num_of_rows := 1 }

def childT : GTable := { name := "c", parents := ["p"], num_of_rows := 1 }

def c1db : List GTable := [parentT, childT]

/-- The table names currently memoized. -/
def memoKeys (st : GState) : List String :=
  st.memo.map Prod.fst

/-- A trace in which no entry for table `pN` occurs strictly after an
entry for table `cN`. -/
def GoodTrace (cN pN : String) (tr : List String) : Prop :=
  ∀ i j, i < j → tr.get? i = some cN → tr.get? j ≠ some pN

/-- The driver invariant for a child/parent name pair: the trace is good,
and once the child has been synthesized its parent is memoized. -/
def DriverInv (cN pN : String) (st : GState) : Prop :=
  GoodTrace cN pN st.trace ∧ (cN ∈ st.trace → pN ∈ memoKeys st)

/-- A driver state in which `p` is already memoized (used to witness the
amended C1). -/
def c1MemoState : GState := { memo := [("p", 1)], trace := ["p"] }

/-! ## The row synthesizer (`fake.py`, `FakeTable.new_fake_row` lines
218-264)

The control skeleton is embedded; the per-column value computation is
reduced to what the retry claims depend on.  Before the retry loop the
code builds, ONCE (lines 221-226): the `FakeRow`, the
`TableUniqueConstraints` and the `UniqueForeignScope` seeded from
`fetch_available_foreign_rows_set()`.  Inside each attempt the code walks
the fillable columns; only the branch for an FK column that participates
in a unique constraint touches the scope (via `random_scope_column`,
line 247) — every other branch (NULL draw, non-unique FK via
`fetch_random_row`, user override, typed default) computes a value from
DB/RNG/Faker state without touching the scope, and is modelled by the
`independent` kind with an oracle for the value.  The outcome of
`unique_constraints.test` (a database query) is the oracle `test`,
indexed by attempt number. -/

abbrev FRow := List (String × Option Val)

inductive FillKind where
  /-- `column.referenced_to` set and `column ∈ unique_constraints.columns`:
  the value comes from `foreign_scopes.random_scope_column(column)`. -/
  | scopedForeign
  /-- every other branch of the per-column dispatch. -/
  | independent
  deriving Repr, DecidableEq

inductive SynthEvent where
  /-- `fake_row.insert()` (fake.py line 258). -/
  | insertRow (table : String) (row : FRow)
  /-- `print(f'{self.table.name} failed: {fake_row.fields}')` (line 261). -/
  | failLog (table : String) (row : FRow)
  /-- `print(f'{self.table.name} failed: exhausted retry limit')`
  (line 264); the carried string is the printed message. -/
  | exhaustLog (msg : String)
  deriving Repr, DecidableEq

structure SynthResult where
  row : Option FRow
  events : List SynthEvent
  /-- the scope state at the START of each attempt, in order. -/
  attemptScopes : List RowsSet
  attempts : Nat
  deriving Repr, DecidableEq

/-- The `for column in self.table.fillable_columns()` loop (fake.py lines
229-254) of one attempt: each scoped-FK column draws from and narrows the
shared scope; every other column takes its oracle value.  `pick i` is the
RNG outcome for the `i`-th column, `indep i` its oracle value. -/
def fillColumns (pick : Nat → Nat) (indep : Nat → Option Val) :
    List (String × FillKind) → RowsSet → Nat → FRow × RowsSet
  | [], scope, _ => ([], scope)
  | (nm, FillKind.scopedForeign) :: rest, scope, i =>
    let r := random_scope_column scope nm (pick i)
    let res := fillColumns pick indep rest r.2 (i + 1)
    ((nm, r.1) :: res.1, res.2)
  | (nm, FillKind.independent) :: rest, scope, i =>
    let res := fillColumns pick indep rest scope (i + 1)
    ((nm, indep i) :: res.1, res.2)

/-- The `for _ in range(retries)` loop of `new_fake_row` (fake.py lines
228-264): `rem` attempts remain, `k` is the absolute attempt number, and
`scope` is the CARRIED scope — narrowing from a failed attempt flows into
the next one.  On a passing test the row is inserted exactly once and
returned; on a failing test the collision is logged, plus the
exhausted-retry message when this was the last attempt; after the loop
the Python function falls through and returns `None`. -/
def attemptLoop (tableName : String) (cols : List (String × FillKind))
    (test : Nat → Bool) (pick : Nat → Nat → Nat)
    (indep : Nat → Nat → Option Val) :
    Nat → Nat → RowsSet → SynthResult
  | 0, _, _ => { row := none, events := [], attemptScopes := [], attempts := 0 }
  | rem + 1, k, scope =>
    let fc := fillColumns (pick k) (indep k) cols scope 0
    if test k then
      { row := some fc.1,
        events := [SynthEvent.insertRow tableName fc.1],
        attemptScopes := [scope], attempts := 1 }
    else
      let logs :=
        if rem = 0 then
          [SynthEvent.failLog tableName fc.1,
            SynthEvent.exhaustLog
              (tableName ++ " failed: exhausted retry limit")]
        else [SynthEvent.failLog tableName fc.1]
      let res := attemptLoop tableName cols test pick indep rem (k + 1) fc.2
      { row := res.row, events := logs ++ res.events,
        attemptScopes := scope :: res.attemptScopes,
        attempts := res.attempts + 1 }

/-- `FakeTable.new_fake_row` (fake.py lines 218-264): seed the scope once
from `fetch_available_foreign_rows_set()` (oracle `seed`), then run the
retry loop. -/
def new_fake_row (tableName : String) (cols : List (String × FillKind))
    (seed : RowsSet) (test : Nat → Bool) (pick : Nat → Nat → Nat)
    (indep : Nat → Nat → Option Val) (retries : Nat) : SynthResult :=
  attemptLoop tableName cols test pick indep retries 0 seed

/-- Number of INSERTs among the emitted events. -/
def countInserts (events : List SynthEvent) : Nat :=
  events.countP (fun e =>
    match e with
    | SynthEvent.insertRow _ _ => true
    | _ => false)

/-- One bucket refines another: same index name, rows a sublist. -/
def bucketRefines (a b : String × List ScopeRow) : Prop :=
  a.1 = b.1 ∧ a.2.Sublist b.2

/-- A scope refines another bucketwise. -/
def scopeRefines (s2 s1 : RowsSet) : Prop :=
  List.Forall₂ bucketRefines s2 s1

/-- C3 column list: a single FK column `a` inside a unique constraint. -/
def c3cols : List (String × FillKind) := [("a", FillKind.scopedForeign)]

/-- C3 seeded scope: the unique index `u` offers two candidate tuples. -/
def c3seed : RowsSet := [("u", [[("a", (1 : Val))], [("a", (2 : Val))]])]

/-! ## Per-column overrides in `FakeFactory.__init__` (fake.py lines
303-337) and `FakeColumn.__call__` (lines 57-71)

A table-definitions map assigns each column a `column_def`: `None`, a
dict, a callable, or a scalar.  For a scalar the code stores
`kwargs['func'] = lambda fake_column: (lambda: column_definition)`
(line 319): the Python closure captures the VARIABLE
`column_definition` — the loop variable of
`for column_name, column_definition in table_definition['columns'].items()`
— not its current value.  `FakeColumn.__call__` runs only later, during
generation, when the loops of `__init__` have finished, so the inner
lambda yields whatever `column_def` was iterated LAST (across all
tables); when that last value is itself a scalar, the call returns that
scalar, and otherwise it returns a non-scalar Python object (modelled as
`none`). -/

inductive ColumnDef where
  | noneDef
  | dictDef
  | callableDef
  | scalarDef (v : Val)
  deriving Repr, DecidableEq

/-- The value held by the `column_definition` loop variable after
`FakeFactory.__init__` finishes: the last column definition iterated, in
Python's insertion order over tables and then columns. -/
def lastColumnDef
    (defs : List (String × List (String × ColumnDef))) : Option ColumnDef :=
  defs.foldl (fun acc td => td.2.foldl (fun _ cd => some cd.2) acc) none

/-- The value `FakeColumn.__call__` produces at generation time for a
column that was assigned a SCALAR `column_def`: `some result` when the
column is scalar-assigned (outer `none` = the column is not
scalar-assigned, so this path is not taken); the result is the captured
cell's content — the LAST iterated definition — when that is a scalar,
and a non-scalar Python object (`none`) otherwise. -/
def scalarColumnValue (defs : List (String × List (String × ColumnDef)))
    (tableName colName : String) : Option (Option Val) :=
  match List.lookup tableName defs with
  | none => none
  | some colDefs =>
    match List.lookup colName colDefs with
    | some (ColumnDef.scalarDef _) =>
      some
        (match lastColumnDef defs with
        | some (ColumnDef.scalarDef w) => some w
        | _ => none)
    | _ => none

/-- C9 failing input: one table, column `a` assigned scalar `5`, column
`b` assigned scalar `7`. -/
def c9defs : List (String × List (String × ColumnDef)) :=
  [("t", [("a", ColumnDef.scalarDef 5), ("b", ColumnDef.scalarDef 7)])]

end Dancer

namespace Dancer

/-! ## Theorems -/

/-- code `fillable` agrees with the spec's iff-characterisation. -/
theorem fillable_iff_specFillable (c : MColumn) :
    c.fillable = true ↔ specFillable c := by
  simp [MColumn.fillable, specFillable, not_or, and_assoc]

/-- C2: when column names are distinct (as MySQL guarantees), a column's
name appears in the column list of the emitted INSERT iff the column is
fillable in the spec's sense: not auto-increment and with neither DEFAULT
nor ON UPDATE equal to `CURRENT_TIMESTAMP`.  In particular auto-increment
and `CURRENT_TIMESTAMP` columns never appear in the INSERT column list. -/
theorem C2_insert_columns_exactly_fillable (t : MTable)
    (hnd : (t.columns.map MColumn.name).Nodup) :
    ∀ c ∈ t.columns, (c.name ∈ insertColumnList t ↔ specFillable c) := by
  intro c hc
  constructor
  · intro hmem
    simp only [insertColumnList, MTable.fillable_fields, List.mem_map,
      List.mem_filter] at hmem
    obtain ⟨c', ⟨hc', hfill⟩, hname⟩ := hmem
    have heq : c' = c := List.inj_on_of_nodup_map hnd hc' hc hname
    exact (fillable_iff_specFillable c).mp (heq ▸ hfill)
  · intro hspec
    have hfill : c.fillable = true := (fillable_iff_specFillable c).mpr hspec
    simp only [insertColumnList, MTable.fillable_fields, List.mem_map,
      List.mem_filter]
    exact ⟨c, ⟨hc, hfill⟩, rfl⟩

/-- Witness for C2 at `trialTable`: only `name` is in the INSERT list. -/
theorem C2_witness :
    (trialTable.columns.map MColumn.name).Nodup ∧
      (plainNameColumn.name ∈ insertColumnList trialTable ↔
        specFillable plainNameColumn) :=
  ⟨by decide,
    C2_insert_columns_exactly_fillable trialTable (by decide)
      plainNameColumn (by decide)⟩

/-- C10: `Table.is_fillable(name)` is the bare membership test — it is
true iff some column bears that name, with no regard to `Column.fillable`,
and coincides with `Table.__contains__`. -/
theorem C10_is_fillable_is_membership (t : MTable) (s : String) :
    (t.is_fillable s = t.containsColumn s) ∧
      (t.is_fillable s = true ↔ ∃ c ∈ t.columns, c.name = s) := by
  constructor
  · simp only [MTable.is_fillable, MTable.containsColumn]
    rw [Bool.eq_iff_iff]
    simp [List.any_eq_true, List.find?_isSome]
  · simp [MTable.is_fillable, List.any_eq_true]

/-- Looking a key up after mapping a function over the values of an
association list is looking it up first and mapping after. -/
theorem lookup_map_values {α : Type} (g : List ScopeRow → α)
    (rs : RowsSet) (key : String) :
    List.lookup key (rs.map (fun kr => (kr.1, g kr.2))) =
      (List.lookup key rs).map g := by
  induction rs with
  | nil => rfl
  | cons hd tl ih =>
    simp only [List.map_cons, List.lookup]
    by_cases h : key == hd.1
    · simp [h]
    · simp only [h]
      exact ih

/-- C4 counterexample: with one bucket holding the tuple `{a: 1}` and a
tuple with no `a` entry, `random_scope_column` for column `a` returns the
non-nil value `1`, yet the bucket afterwards is `[{a: 1}]`: the tuple
with no entry was dropped, while the claim's narrowing (drop only tuples
whose value at `a` *differs*) would have retained it. -/
theorem C4_counterexample :
    (random_scope_column c4Scope "a" 0).1 = some 1 ∧
      (random_scope_column c4Scope "a" 0).2 = [("u", [[("a", (1 : Val))]])] ∧
      claimNarrow [[("a", (1 : Val))], []] "a" 1 =
        [[("a", (1 : Val))], []] ∧
      List.lookup "u" (random_scope_column c4Scope "a" 0).2 ≠
        some (claimNarrow [[("a", (1 : Val))], []] "a" 1) := by
  decide

/-- C4 amended: when `random_scope_column(c)` returns a non-nil value `v`,
every bucket afterwards contains exactly the tuples it contained before
that HAVE an entry at `c.name` and whose entry equals `v`; tuples with no
entry at `c.name` are dropped along with the differing ones. -/
theorem C4_scope_keeps_exact_matches (rs : RowsSet) (colName : String)
    (idx : Nat) (v : Val)
    (h : (random_scope_column rs colName idx).1 = some v) :
    ∀ key bucket, List.lookup key rs = some bucket →
      List.lookup key (random_scope_column rs colName idx).2 =
        some (bucket.filter (fun row => List.lookup colName row == some v)) := by
  intro key bucket hkey
  unfold random_scope_column at h ⊢
  cases hg : get_random_value_on_column rs colName idx with
  | none => rw [hg] at h; exact absurd h (by simp)
  | some w =>
    rw [hg] at h
    have hv : w = v := by simpa using h
    subst hv
    simp only [scope_column_value,
      lookup_map_values (fun b => b.filter
        (fun row => List.lookup colName row == some w)) rs key, hkey]
    rfl

/-- Witness for the amended C4 at `c4Scope`: the bucket `u` afterwards is
exactly the filter keeping the rows whose `a` entry equals `1`. -/
theorem C4_scope_keeps_exact_matches_witness :
    (random_scope_column c4Scope "a" 0).1 = some 1 ∧
      List.lookup "u" (random_scope_column c4Scope "a" 0).2 =
        some (([[("a", (1 : Val))], []] : List ScopeRow).filter
          (fun row => List.lookup "a" row == some 1)) :=
  ⟨by decide,
    C4_scope_keeps_exact_matches c4Scope "a" 0 1 (by decide) "u"
      [[("a", (1 : Val))], []] (by decide)⟩

/-- C5: the WHERE predicate built by `_where_foreign_values_not_in` — one
clause `(p1<>:v1 AND p2<>:v2 AND …)` per existing child tuple, all
clauses joined with AND — evaluates to false on any candidate parent
tuple that agrees componentwise with some existing child tuple; the
exclusion never under-filters. -/
theorem C5_exclusion_never_under_filters (cols : List MColumn)
    (existing : List (String → Val)) (cand : String × String → Val)
    (hcols : cols ≠ []) (hFK : ∀ c ∈ cols, c.referenced_to.isSome)
    (r0 : String → Val) (hr0 : r0 ∈ existing)
    (heq : ∀ c ∈ cols, ∀ rc, c.referenced_to = some rc →
      cand rc = r0 c.name) :
    whereForeignValuesNotIn cols existing cand = false := by
  have hclause : notInClause cols r0 cand = false := by
    cases cols with
    | nil => exact absurd rfl hcols
    | cons c0 rest =>
      have h0 : c0.referenced_to.isSome := hFK c0 (by simp)
      obtain ⟨rc, hrc⟩ := Option.isSome_iff_exists.mp h0
      have hcv : cand rc = r0 c0.name := heq c0 (by simp) rc hrc
      simp [notInClause, hrc, hcv]
  rw [whereForeignValuesNotIn, List.all_eq_false]
  exact ⟨r0, hr0, by simp [hclause]⟩

/-- Witness for C5: a single FK column, a single existing child tuple and
a candidate equal to it; the predicate is false. -/
theorem C5_witness :
    whereForeignValuesNotIn [c5Column] c5Existing c5Cand = false :=
  C5_exclusion_never_under_filters [c5Column] c5Existing c5Cand
    (by simp)
    (by intro c hc; rw [List.mem_singleton] at hc; subst hc; rfl)
    (fun _ => 5)
    (by rw [c5Existing, List.mem_singleton])
    (by intro c hc rc hrc; rfl)

/-- Splitting at the first occurrence of a member character: the split
succeeds, reassembles the input, and the left part is free of the
character. -/
theorem splitOnFirstChar_spec (c : Char) :
    ∀ cs : List Char, c ∈ cs →
      ∃ l r, splitOnFirstChar c cs = some (l, r) ∧ cs = l ++ c :: r ∧
        c ∉ l
  | [], h => absurd h (List.not_mem_nil c)
  | x :: xs, h => by
    by_cases hx : x = c
    · exact ⟨[], xs, by simp [splitOnFirstChar, hx], by simp [hx], by simp⟩
    · have hmem : c ∈ xs := by
        rcases List.mem_cons.mp h with h1 | h1
        · exact absurd h1.symm hx
        · exact h1
      obtain ⟨l, r, hsplit, hdecomp, hnotin⟩ := splitOnFirstChar_spec c xs hmem
      refine ⟨x :: l, r, ?_, by simp [hdecomp], ?_⟩
      · simp [splitOnFirstChar, hx, hsplit]
      · intro hmem2
        rcases List.mem_cons.mp hmem2 with h1 | h1
        · exact hx h1.symm
        · exact hnotin h1

/-- C8 counterexample: on the catalog type `enum('a(b','c')` (two `(` in
the text) the parser's base type is `enum` — the text left of the FIRST
`(` — not the text left of the last `(` that the claim prescribes, and
the two parses differ. -/
theorem C8_counterexample :
    (parseColumnType c8Input).map ParsedType.base =
      some ['e', 'n', 'u', 'm'] ∧
      (specParseColumnType c8Input).map ParsedType.base =
        some ['e', 'n', 'u', 'm', '(', sq, 'a'] ∧
      parseColumnType c8Input ≠ specParseColumnType c8Input := by
  decide

/-- C8 amended: for every catalog Type string whose remainder after the
trailing-`unsigned` stage ends in `)` and contains a `(`, the parser
splits on the FIRST `(`: the base type is the trimmed, lowercased text
left of the first `(` and the size list is parsed from the text between
that `(` and the final `)`. -/
theorem C8_parser_splits_on_first_paren (s : List Char)
    (hend : (stripUnsignedStage s).1.getLast? = some ')')
    (hparen : '(' ∈ (stripUnsignedStage s).1.dropLast) :
    ∃ l r, (stripUnsignedStage s).1.dropLast = l ++ '(' :: r ∧
      '(' ∉ l ∧
      parseColumnType s =
        some ⟨toLowerChars (trimChars l), some r, (stripUnsignedStage s).2⟩ := by
  obtain ⟨l, r, hsplit, hdecomp, hnotin⟩ :=
    splitOnFirstChar_spec '(' _ hparen
  refine ⟨l, r, hdecomp, hnotin, ?_⟩
  simp [parseColumnType, hend, hsplit]

/-- Witness for the amended C8 at the input `enum('a(b','c')`. -/
theorem C8_parser_splits_on_first_paren_witness :
    (stripUnsignedStage c8Input).1.getLast? = some ')' ∧
      '(' ∈ (stripUnsignedStage c8Input).1.dropLast ∧
      ∃ l r, (stripUnsignedStage c8Input).1.dropLast = l ++ '(' :: r ∧
        '(' ∉ l ∧
        parseColumnType c8Input =
          some ⟨toLowerChars (trimChars l), some r,
            (stripUnsignedStage c8Input).2⟩ :=
  ⟨by decide, by decide,
    C8_parser_splits_on_first_paren c8Input (by decide) (by decide)⟩

/-! ### Lemmas about the generation driver -/

theorem genRows_zero (db : List GTable) (st : GState) (t : GTable) :
    genRows db 0 st t = none :=
  rfl

theorem genRows_succ (db : List GTable) (fuel : Nat) (st : GState)
    (t : GTable) :
    genRows db (fuel + 1) st t =
      match List.lookup t.name st.memo with
      | some n => some (st, n)
      | none =>
        match genParents db fuel t.name t.parents st with
        | none => none
        | some st2 => some (pushRows st2 t, t.num_of_rows) :=
  rfl

theorem genParents_nil (db : List GTable) (fuel : Nat) (selfName : String)
    (st : GState) :
    genParents db fuel selfName [] st = some st :=
  rfl

theorem genParents_cons (db : List GTable) (fuel : Nat)
    (selfName p : String) (rest : List String) (st : GState) :
    genParents db fuel selfName (p :: rest) st =
      match dbLookup db p with
      | none => none
      | some pt =>
        if selfName = pt.name then genParents db fuel selfName rest st
        else
          match genRows db fuel st pt with
          | none => none
          | some (st2, n) =>
            genParents db fuel selfName rest (memoWrite st2 pt.name n) :=
  rfl

/-- A key that is present in an association list has a successful
lookup. -/
theorem lookup_isSome_of_mem_keys (l : List (String × Nat)) (x : String)
    (hx : x ∈ l.map Prod.fst) : (List.lookup x l).isSome := by
  induction l with
  | nil => simp at hx
  | cons hd tl ih =>
    simp only [List.map_cons, List.mem_cons] at hx
    rcases hx with h1 | h1
    · simp [List.lookup, h1.symm]
    · by_cases hk : x == hd.1
      · simp [List.lookup, hk]
      · simp only [List.lookup, hk]
        exact ih h1

/-- Shape of a `genParents` run, given the shape of `genRows` at the same
fuel: the memo is only prepended to and the trace only appended to. -/
theorem genParents_shape_of (db : List GTable) (fuel : Nat)
    (hR : ∀ st t st2 n, genRows db fuel st t = some (st2, n) →
      (∃ dm, st2.memo = dm ++ st.memo) ∧ ∃ dt, st2.trace = st.trace ++ dt) :
    ∀ ps selfName st st2, genParents db fuel selfName ps st = some st2 →
      (∃ dm, st2.memo = dm ++ st.memo) ∧ ∃ dt, st2.trace = st.trace ++ dt
  | [], selfName, st, st2, h => by
    rw [genParents_nil] at h
    cases h
    exact ⟨⟨[], rfl⟩, [], by simp⟩
  | p :: rest, selfName, st, st2, h => by
    rw [genParents_cons] at h
    split at h
    · exact absurd h (by simp)
    · rename_i pt hlk
      split at h
      · exact genParents_shape_of db fuel hR rest selfName st st2 h
      · split at h
        · exact absurd h (by simp)
        · rename_i stm n hgr
          obtain ⟨⟨dm1, hm1⟩, dt1, ht1⟩ := hR st pt stm n hgr
          obtain ⟨⟨dm2, hm2⟩, dt2, ht2⟩ :=
            genParents_shape_of db fuel hR rest selfName _ st2 h
          refine ⟨⟨dm2 ++ [(pt.name, n)] ++ dm1, ?_⟩, dt1 ++ dt2, ?_⟩
          · simp only [memoWrite] at hm2
            simp [hm2, hm1]
          · simp only [memoWrite] at ht2
            simp [ht2, ht1]

/-- Shape of a `genRows` run: the memo is only prepended to and the trace
only appended to. -/
theorem genRows_shape (db : List GTable) :
    ∀ fuel st t st2 n, genRows db fuel st t = some (st2, n) →
      (∃ dm, st2.memo = dm ++ st.memo) ∧ ∃ dt, st2.trace = st.trace ++ dt := by
  intro fuel
  induction fuel with
  | zero => intro st t st2 n h; rw [genRows_zero] at h; exact absurd h (by simp)
  | succ fuel ih =>
    intro st t st2 n h
    rw [genRows_succ] at h
    split at h
    · cases h
      exact ⟨⟨[], rfl⟩, [], by simp⟩
    · split at h
      · exact absurd h (by simp)
      · rename_i stf heq
        cases h
        obtain ⟨⟨dm, hm⟩, dt, ht⟩ :=
          genParents_shape_of db fuel ih t.parents t.name st stf heq
        exact ⟨⟨dm, hm⟩, dt ++ List.replicate t.num_of_rows t.name,
          by simp [pushRows, ht]⟩

/-- Memo keys only grow along a `genParents` run. -/
theorem genParents_memo_mono (db : List GTable) (fuel : Nat)
    (ps : List String) (selfName : String) (st st2 : GState)
    (h : genParents db fuel selfName ps st = some st2) :
    ∀ x ∈ memoKeys st, x ∈ memoKeys st2 := by
  obtain ⟨⟨dm, hm⟩, -⟩ :=
    genParents_shape_of db fuel (genRows_shape db fuel) ps selfName st st2 h
  intro x hx
  unfold memoKeys at hx ⊢
  rw [hm]
  simp only [List.map_append, List.mem_append]
  exact Or.inr hx

/-- Memo keys only grow along a `genRows` run. -/
theorem genRows_memo_mono (db : List GTable) (fuel : Nat) (st : GState)
    (t : GTable) (st2 : GState) (n : Nat)
    (h : genRows db fuel st t = some (st2, n)) :
    ∀ x ∈ memoKeys st, x ∈ memoKeys st2 := by
  obtain ⟨⟨dm, hm⟩, -⟩ := genRows_shape db fuel st t st2 n h
  intro x hx
  unfold memoKeys at hx ⊢
  rw [hm]
  simp only [List.map_append, List.mem_append]
  exact Or.inr hx

/-- A `genParents` run appends no trace entry for a table that was
memoized when it started, given the analogous fact for `genRows` at the
same fuel. -/
theorem genParents_count_of (db : List GTable) (fuel : Nat)
    (hRc : ∀ st t st2 n, genRows db fuel st t = some (st2, n) →
      ∀ x ∈ memoKeys st, st2.trace.count x = st.trace.count x) :
    ∀ ps selfName st st2, genParents db fuel selfName ps st = some st2 →
      ∀ x ∈ memoKeys st, st2.trace.count x = st.trace.count x
  | [], selfName, st, st2, h => by
    rw [genParents_nil] at h
    cases h
    intro x _
    rfl
  | p :: rest, selfName, st, st2, h => by
    rw [genParents_cons] at h
    split at h
    · exact absurd h (by simp)
    · rename_i pt hlk
      split at h
      · exact genParents_count_of db fuel hRc rest selfName st st2 h
      · split at h
        · exact absurd h (by simp)
        · rename_i stm n hgr
          intro x hx
          have h1 : stm.trace.count x = st.trace.count x :=
            hRc st pt stm n hgr x hx
          have hx2 : x ∈ memoKeys (memoWrite stm pt.name n) := by
            have : x ∈ memoKeys stm := genRows_memo_mono db fuel st pt stm n hgr x hx
            simp only [memoWrite, memoKeys, List.map_cons, List.mem_cons]
            exact Or.inr this
          have h2 := genParents_count_of db fuel hRc rest selfName _ st2 h x hx2
          simp only [memoWrite] at h2
          rw [h2, h1]

/-- A `genRows` run appends no trace entry for a table that was memoized
when it started: once memoized, a table is never re-synthesized. -/
theorem genRows_count (db : List GTable) :
    ∀ fuel st t st2 n, genRows db fuel st t = some (st2, n) →
      ∀ x ∈ memoKeys st, st2.trace.count x = st.trace.count x := by
  intro fuel
  induction fuel with
  | zero => intro st t st2 n h; rw [genRows_zero] at h; exact absurd h (by simp)
  | succ fuel ih =>
    intro st t st2 n h
    rw [genRows_succ] at h
    split at h
    · cases h
      intro x _
      rfl
    · rename_i hmiss
      split at h
      · exact absurd h (by simp)
      · rename_i stf heq
        cases h
        intro x hx
        have h1 := genParents_count_of db fuel ih t.parents t.name st stf heq x hx
        have hxt : x ≠ t.name := by
          intro hcontra
          have := lookup_isSome_of_mem_keys st.memo x hx
          rw [hcontra, hmiss] at this
          simp at this
        simp only [pushRows, List.count_append, h1]
        have : (List.replicate t.num_of_rows t.name).count x = 0 := by
          rw [List.count_eq_zero]
          intro hmem
          exact hxt (List.eq_of_mem_replicate hmem)
        omega

/-- Trace entries appended by a `genParents` run belong to tables
reachable (over non-self FK edges) from one of the listed,
non-self-referencing parents — given the analogous fact for `genRows` at
the same fuel. -/
theorem genParents_reach_of (db : List GTable) (fuel : Nat)
    (hRr : ∀ st t st2 n, genRows db fuel st t = some (st2, n) → t ∈ db →
      ∀ x, x ∈ st2.trace → x ∈ st.trace ∨
        Relation.ReflTransGen (gstep db) t.name x) :
    ∀ ps selfName st st2, genParents db fuel selfName ps st = some st2 →
      ∀ x, x ∈ st2.trace → x ∈ st.trace ∨
        ∃ q ∈ ps, q ≠ selfName ∧ Relation.ReflTransGen (gstep db) q x
  | [], selfName, st, st2, h => by
    rw [genParents_nil] at h
    cases h
    intro x hx
    exact Or.inl hx
  | p :: rest, selfName, st, st2, h => by
    rw [genParents_cons] at h
    split at h
    · exact absurd h (by simp)
    · rename_i pt hlk
      have hptdb : pt ∈ db := List.mem_of_find?_eq_some hlk
      have hptname : pt.name = p := by
        have := List.find?_some hlk
        simpa using this
      split at h
      · rename_i hself
        intro x hx
        rcases genParents_reach_of db fuel hRr rest selfName st st2 h x hx with
          h1 | ⟨q, hq, hqne, hreach⟩
        · exact Or.inl h1
        · exact Or.inr ⟨q, List.mem_cons_of_mem p hq, hqne, hreach⟩
      · rename_i hself
        split at h
        · exact absurd h (by simp)
        · rename_i stm n hgr
          intro x hx
          rcases genParents_reach_of db fuel hRr rest selfName _ st2 h x hx with
            h1 | ⟨q, hq, hqne, hreach⟩
          · simp only [memoWrite] at h1
            rcases hRr st pt stm n hgr hptdb x h1 with h2 | h2
            · exact Or.inl h2
            · refine Or.inr ⟨p, List.mem_cons_self p rest, ?_, hptname ▸ h2⟩
              intro hcontra
              exact hself (hcontra ▸ hptname.symm)
          · exact Or.inr ⟨q, List.mem_cons_of_mem p hq, hqne, hreach⟩

/-- Trace entries appended by a `genRows` run on a table of the database
belong to tables reachable from it over non-self FK edges. -/
theorem genRows_reach (db : List GTable) :
    ∀ fuel st t st2 n, genRows db fuel st t = some (st2, n) → t ∈ db →
      ∀ x, x ∈ st2.trace → x ∈ st.trace ∨
        Relation.ReflTransGen (gstep db) t.name x := by
  intro fuel
  induction fuel with
  | zero => intro st t st2 n h; rw [genRows_zero] at h; exact absurd h (by simp)
  | succ fuel ih =>
    intro st t st2 n h htdb x
    rw [genRows_succ] at h
    split at h
    · cases h
      intro hx
      exact Or.inl hx
    · split at h
      · exact absurd h (by simp)
      · rename_i stf heq
        cases h
        intro hx
        simp only [pushRows, List.mem_append] at hx
        rcases hx with hx | hx
        · rcases genParents_reach_of db fuel ih t.parents t.name st stf heq x hx
            with h1 | ⟨q, hq, hqne, hreach⟩
          · exact Or.inl h1
          · refine Or.inr (Relation.ReflTransGen.head ?_ hreach)
            exact ⟨t, htdb, rfl, hq, hqne⟩
        · have : x = t.name := List.eq_of_mem_replicate hx
          exact Or.inr (this ▸ Relation.ReflTransGen.refl)

/-- After a successful `genParents` run, every listed parent other than a
self-reference is memoized. -/
theorem genParents_memoizes (db : List GTable) (fuel : Nat) :
    ∀ ps selfName st st2, genParents db fuel selfName ps st = some st2 →
      ∀ q ∈ ps, q ≠ selfName → q ∈ memoKeys st2
  | [], selfName, st, st2, h => by
    intro q hq
    simp at hq
  | p :: rest, selfName, st, st2, h => by
    rw [genParents_cons] at h
    split at h
    · exact absurd h (by simp)
    · rename_i pt hlk
      have hptname : pt.name = p := by
        have := List.find?_some hlk
        simpa using this
      split at h
      · rename_i hself
        intro q hq hqne
        rcases List.mem_cons.mp hq with h1 | h1
        · exact absurd (h1.trans (hself.trans hptname).symm) hqne
        · exact genParents_memoizes db fuel rest selfName st st2 h q h1 hqne
      · split at h
        · exact absurd h (by simp)
        · rename_i stm n hgr
          intro q hq hqne
          rcases List.mem_cons.mp hq with h1 | h1
          · subst h1
            have hin : q ∈ memoKeys (memoWrite stm pt.name n) := by
              simp [memoWrite, memoKeys, hptname]
            exact genParents_memo_mono db fuel rest selfName _ st2 h q hin
          · exact genParents_memoizes db fuel rest selfName _ st2 h q h1 hqne

/-- `memoWrite` and `pushRows` interact trivially with `memoKeys`. -/
theorem memoKeys_pushRows (st : GState) (t : GTable) :
    memoKeys (pushRows st t) = memoKeys st :=
  rfl

/-- The driver invariant survives a `genParents` run, given that it
survives `genRows` at the same fuel. -/
theorem genParents_inv_of (db : List GTable) (cN pN : String) (fuel : Nat)
    (hRi : ∀ st t st2 n, genRows db fuel st t = some (st2, n) → t ∈ db →
      DriverInv cN pN st → DriverInv cN pN st2) :
    ∀ ps selfName st st2, genParents db fuel selfName ps st = some st2 →
      DriverInv cN pN st → DriverInv cN pN st2
  | [], selfName, st, st2, h => by
    rw [genParents_nil] at h
    cases h
    exact id
  | p :: rest, selfName, st, st2, h => by
    rw [genParents_cons] at h
    split at h
    · exact absurd h (by simp)
    · rename_i pt hlk
      have hptdb : pt ∈ db := List.mem_of_find?_eq_some hlk
      split at h
      · exact genParents_inv_of db cN pN fuel hRi rest selfName st st2 h
      · split at h
        · exact absurd h (by simp)
        · rename_i stm n hgr
          intro hinv
          have hinv2 : DriverInv cN pN stm := hRi st pt stm n hgr hptdb hinv
          have hinv3 : DriverInv cN pN (memoWrite stm pt.name n) := by
            refine ⟨hinv2.1, fun hmem => ?_⟩
            have := hinv2.2 hmem
            simp only [memoWrite, memoKeys, List.map_cons, List.mem_cons]
            exact Or.inr this
          exact genParents_inv_of db cN pN fuel hRi rest selfName _ st2 h hinv3

/-- The driver invariant for the pair (child `ct`, parent `pN`) survives
any successful `genRows` run on a table of the database, provided the
schema has distinct table names and no FK cycle through `pN`. -/
theorem genRows_inv (db : List GTable) (ct : GTable) (pN : String)
    (hnd : (db.map GTable.name).Nodup) (hct : ct ∈ db)
    (hp : pN ∈ ct.parents) (hpc : pN ≠ ct.name)
    (hacyc : ¬ Relation.TransGen (gstep db) pN pN) :
    ∀ fuel st t st2 n, genRows db fuel st t = some (st2, n) → t ∈ db →
      DriverInv ct.name pN st → DriverInv ct.name pN st2 := by
  intro fuel
  induction fuel with
  | zero => intro st t st2 n h; rw [genRows_zero] at h; exact absurd h (by simp)
  | succ fuel ih =>
    intro st t st2 n h htdb hinv
    rw [genRows_succ] at h
    split at h
    · cases h
      exact hinv
    · rename_i hmiss
      split at h
      · exact absurd h (by simp)
      · rename_i stf heq
        cases h
        have hinvf : DriverInv ct.name pN stf :=
          genParents_inv_of db ct.name pN fuel ih t.parents t.name st stf heq hinv
        have htrace2 : (pushRows stf t).trace =
            stf.trace ++ List.replicate t.num_of_rows t.name := rfl
        by_cases htp : t.name = pN
        · -- the table being synthesized IS the parent; show the child has
          -- never been synthesized, so the appended parent rows are safe
          have hctf : ct.name ∉ stf.trace := by
            intro hmem
            rcases genParents_reach_of db fuel
                (fun st' t' st2' n' h' ht' =>
                  genRows_reach db fuel st' t' st2' n' h' ht')
                t.parents t.name st stf heq ct.name hmem with
              hold | ⟨q, hq, hqne, hreach⟩
            · have hpm := hinv.2 hold
              have hsome := lookup_isSome_of_mem_keys st.memo pN hpm
              rw [← htp, hmiss] at hsome
              simp at hsome
            · have hstep : gstep db pN q :=
                ⟨t, htdb, htp, hq, htp ▸ hqne⟩
              have hreachP : Relation.ReflTransGen (gstep db) pN ct.name :=
                Relation.ReflTransGen.head hstep hreach
              have hstepC : gstep db ct.name pN := ⟨ct, hct, rfl, hp, hpc⟩
              exact hacyc (Relation.TransGen.tail' hreachP hstepC)
          have hct2 : ct.name ∉ (pushRows stf t).trace := by
            rw [htrace2]
            intro hmem
            rcases List.mem_append.mp hmem with h1 | h1
            · exact hctf h1
            · have := List.eq_of_mem_replicate h1
              exact hpc ((this.trans htp).symm)
          refine ⟨fun i j hij hi _ => ?_, fun hmem => absurd hmem hct2⟩
          exact absurd (List.get?_mem hi) hct2
        · by_cases htc : t.name = ct.name
          · -- the table being synthesized IS the child; its parents were
            -- just memoized, and the appended rows are child rows
            have ht_eq : t = ct := List.inj_on_of_nodup_map hnd htdb hct htc
            have hpmem : pN ∈ memoKeys stf :=
              genParents_memoizes db fuel t.parents t.name st stf heq pN
                (ht_eq ▸ hp) (fun hc => hpc (hc.symm ▸ htc))
            constructor
            · intro i j hij hi hj
              by_cases hjL : j < stf.trace.length
              · have hiL : i < stf.trace.length := lt_trans hij hjL
                rw [htrace2, List.get?_append hiL] at hi
                rw [htrace2, List.get?_append hjL] at hj
                exact hinvf.1 i j hij hi hj
              · rw [htrace2, List.get?_append_right (le_of_not_lt hjL)] at hj
                have hmem := List.get?_mem hj
                have := List.eq_of_mem_replicate hmem
                exact hpc (this.trans htc)
            · intro _
              rw [memoKeys_pushRows]
              exact hpmem
          · -- an unrelated table; the appended rows are neither child nor
            -- parent rows
            constructor
            · intro i j hij hi hj
              by_cases hjL : j < stf.trace.length
              · have hiL : i < stf.trace.length := lt_trans hij hjL
                rw [htrace2, List.get?_append hiL] at hi
                rw [htrace2, List.get?_append hjL] at hj
                exact hinvf.1 i j hij hi hj
              · rw [htrace2, List.get?_append_right (le_of_not_lt hjL)] at hj
                have hmem := List.get?_mem hj
                exact htp (List.eq_of_mem_replicate hmem).symm
            · intro hmem
              rw [htrace2] at hmem
              rcases List.mem_append.mp hmem with h1 | h1
              · rw [memoKeys_pushRows]
                exact hinvf.2 h1
              · exact absurd (List.eq_of_mem_replicate h1).symm htc

/-- The driver invariant survives the top-level loop of `generate`. -/
theorem genAll_inv (db : List GTable) (ct : GTable) (pN : String)
    (hnd : (db.map GTable.name).Nodup) (hct : ct ∈ db)
    (hp : pN ∈ ct.parents) (hpc : pN ≠ ct.name)
    (hacyc : ¬ Relation.TransGen (gstep db) pN pN) (fuel : Nat) :
    ∀ l, (∀ t ∈ l, t ∈ db) → ∀ st st2, genAll db fuel l st = some st2 →
      DriverInv ct.name pN st → DriverInv ct.name pN st2
  | [], _, st, st2, h => by
    cases h
    exact id
  | t :: rest, hsub, st, st2, h => by
    rw [genAll] at h
    split at h
    · exact absurd h (by simp)
    · rename_i r stm n heq
      intro hinv
      have h1 : DriverInv ct.name pN stm :=
        genRows_inv db ct pN hnd hct hp hpc hacyc fuel st t stm n heq
          (hsub t (List.mem_cons_self t rest)) hinv
      exact genAll_inv db ct pN hnd hct hp hpc hacyc fuel rest
        (fun u hu => hsub u (List.mem_cons_of_mem t hu)) stm st2 h h1

/-- C7: in any completed `generate()` run over a schema with distinct
table names and no FK cycle through the parent, for every FK edge
child→parent between distinct tables, every row-synthesis call (hence
every INSERT) for the parent precedes every row-synthesis call for the
child in the trace. -/
theorem C7_parent_rows_before_child_rows (db : List GTable) (fuel : Nat)
    (st : GState) (hrun : generate db fuel = some st)
    (ct : GTable) (hct : ct ∈ db) (pN : String) (hp : pN ∈ ct.parents)
    (hpc : pN ≠ ct.name) (hnd : (db.map GTable.name).Nodup)
    (hacyc : ¬ Relation.TransGen (gstep db) pN pN) :
    ∀ i j, st.trace.get? i = some ct.name → st.trace.get? j = some pN →
      j < i := by
  have hinit : DriverInv ct.name pN { memo := [], trace := [] } := by
    constructor
    · intro i j _ hi _
      simp at hi
    · intro hmem
      simp at hmem
  have hinv : DriverInv ct.name pN st :=
    genAll_inv db ct pN hnd hct hp hpc hacyc fuel db (fun _ ht => ht)
      { memo := [], trace := [] } st hrun hinit
  intro i j hi hj
  rcases Nat.lt_trichotomy i j with hlt | heqij | hgt
  · exact absurd hj (hinv.1 i j hlt hi)
  · subst heqij
    rw [hi] at hj
    have : ct.name = pN := by injection hj
    exact absurd this.symm hpc
  · exact hgt

/-- Witness for C7 on the schema `c1db` (parent `p`, child `c`): in the
completed run's trace, every `p` entry precedes every `c` entry. -/
theorem C7_witness :
    generate c1db 3 =
      some { memo := [("p", 1)], trace := ["p", "p", "c"] } ∧
      ∀ i j,
        (["p", "p", "c"] : List String).get? i = some childT.name →
          (["p", "p", "c"] : List String).get? j = some "p" → j < i := by
  have hrun : generate c1db 3 =
      some { memo := [("p", 1)], trace := ["p", "p", "c"] } := by decide
  refine ⟨hrun, ?_⟩
  have hacyc : ¬ Relation.TransGen (gstep c1db) "p" "p" := by
    have hnostep : ∀ x, ¬ gstep c1db "p" x := by
      intro x hx
      obtain ⟨ta, hta, hname, hxp, hne⟩ := hx
      rcases List.mem_cons.mp hta with h1 | h1
      · subst h1
        simp [parentT] at hxp
      · rcases List.mem_cons.mp h1 with h2 | h2
        · subst h2
          simp [childT] at hname
        · simp at h2
    have hall : ∀ b, ¬ Relation.TransGen (gstep c1db) "p" b := by
      intro b h
      induction h with
      | single h1 => exact hnostep _ h1
      | tail _ _ ih => exact ih
    exact hall "p"
  exact C7_parent_rows_before_child_rows c1db 3
    { memo := [("p", 1)], trace := ["p", "p", "c"] } hrun childT
    (by decide) "p" (by decide) (by decide) (by decide) hacyc

/-- C1 counterexample: in the schema `c1db` (catalog order `p, c`, `c`
referencing `p`, one row each) the completed run synthesizes TWO rows
for `p`: the top-level loop does not memoize `p`, so the later recursive
parent step for `c` re-synthesizes it instead of returning memoized
rows. -/
theorem C1_counterexample :
    generate c1db 3 =
      some { memo := [("p", 1)], trace := ["p", "p", "c"] } ∧
      parentT.num_of_rows = 1 ∧
      (["p", "p", "c"] : List String).count "p" = 2 := by
  decide

/-- C1 amended: once a table IS memoized, a later request returns the
memoized rows and changes nothing, and no completed `genRows` call adds
trace entries for any table memoized at its start. -/
theorem C1_memo_respected_once_written (db : List GTable) (fuel : Nat)
    (st : GState) (t : GTable) (st2 : GState) (n : Nat)
    (h : genRows db fuel st t = some (st2, n)) :
    (∀ m, List.lookup t.name st.memo = some m → st2 = st ∧ n = m) ∧
      ∀ x ∈ memoKeys st, st2.trace.count x = st.trace.count x := by
  constructor
  · intro m hm
    cases fuel with
    | zero => rw [genRows_zero] at h; exact absurd h (by simp)
    | succ fuel =>
      rw [genRows_succ, hm] at h
      simp only [Option.some.injEq, Prod.mk.injEq] at h
      exact ⟨h.1.symm, h.2.symm⟩
  · exact genRows_count db fuel st t st2 n h

/-- Witness for the amended C1: with `p` memoized, requesting `p` again
returns the memoized count and leaves the state untouched. -/
theorem C1_memo_respected_witness :
    (∀ m, List.lookup parentT.name c1MemoState.memo = some m →
      c1MemoState = c1MemoState ∧ 1 = m) ∧
      ∀ x ∈ memoKeys c1MemoState,
        c1MemoState.trace.count x = c1MemoState.trace.count x :=
  C1_memo_respected_once_written c1db 2 c1MemoState parentT c1MemoState 1
    (by decide)

/-! ### Lemmas about the row synthesizer -/

theorem countInserts_append (l1 l2 : List SynthEvent) :
    countInserts (l1 ++ l2) = countInserts l1 + countInserts l2 := by
  simp [countInserts, List.countP_append]

theorem scopeRefines_refl (s : RowsSet) : scopeRefines s s := by
  induction s with
  | nil => exact List.Forall₂.nil
  | cons hd tl ih =>
    exact List.Forall₂.cons ⟨rfl, List.Sublist.refl hd.2⟩ ih

theorem scopeRefines_trans {a b c : RowsSet} (h1 : scopeRefines a b)
    (h2 : scopeRefines b c) : scopeRefines a c := by
  induction h1 generalizing c with
  | nil => cases h2; exact List.Forall₂.nil
  | cons hab _ ih =>
    cases h2 with
    | cons hbc h2' =>
      exact List.Forall₂.cons ⟨hab.1.trans hbc.1, hab.2.trans hbc.2⟩ (ih h2')

theorem scope_column_value_refines (rs : RowsSet) (colName : String)
    (v : Val) : scopeRefines (scope_column_value rs colName v) rs := by
  induction rs with
  | nil => exact List.Forall₂.nil
  | cons hd tl ih =>
    exact List.Forall₂.cons ⟨rfl, List.filter_sublist hd.2⟩ ih

theorem random_scope_column_refines (rs : RowsSet) (colName : String)
    (idx : Nat) : scopeRefines (random_scope_column rs colName idx).2 rs := by
  unfold random_scope_column
  cases hg : get_random_value_on_column rs colName idx with
  | none => exact scopeRefines_refl rs
  | some v => exact scope_column_value_refines rs colName v

theorem fillColumns_refines (pick : Nat → Nat) (indep : Nat → Option Val) :
    ∀ cols scope i,
      scopeRefines (fillColumns pick indep cols scope i).2 scope
  | [], scope, i => scopeRefines_refl scope
  | (nm, FillKind.scopedForeign) :: rest, scope, i => by
    simp only [fillColumns]
    exact scopeRefines_trans
      (fillColumns_refines pick indep rest
        (random_scope_column scope nm (pick i)).2 (i + 1))
      (random_scope_column_refines scope nm (pick i))
  | (nm, FillKind.independent) :: rest, scope, i => by
    simp only [fillColumns]
    exact fillColumns_refines pick indep rest scope (i + 1)

theorem attemptLoop_scopes_head (tableName : String)
    (cols : List (String × FillKind)) (test : Nat → Bool)
    (pick : Nat → Nat → Nat) (indep : Nat → Nat → Option Val) :
    ∀ rem k scope, 1 ≤ rem →
      (attemptLoop tableName cols test pick indep rem k
        scope).attemptScopes.head? = some scope := by
  intro rem
  cases rem with
  | zero => intro k scope h; exact absurd h (by omega)
  | succ rem =>
    intro k scope _
    by_cases ht : test k <;> simp [attemptLoop, ht]

theorem attemptLoop_scopes_chain (tableName : String)
    (cols : List (String × FillKind)) (test : Nat → Bool)
    (pick : Nat → Nat → Nat) (indep : Nat → Nat → Option Val) :
    ∀ rem k scope, List.Chain' (fun a b => scopeRefines b a)
      (attemptLoop tableName cols test pick indep rem k
        scope).attemptScopes := by
  intro rem
  induction rem with
  | zero => intro k scope; simp [attemptLoop]
  | succ rem ih =>
    intro k scope
    by_cases ht : test k
    · simp [attemptLoop, ht]
    · simp only [attemptLoop, ht, if_false, Bool.false_eq_true]
      rw [List.chain'_cons']
      refine ⟨?_, ih (k + 1) _⟩
      intro b hb
      cases rem with
      | zero => simp [attemptLoop] at hb
      | succ rem' =>
        rw [attemptLoop_scopes_head tableName cols test pick indep
          (rem' + 1) (k + 1) _ (by omega)] at hb
        have hbeq : (fillColumns (pick k) (indep k) cols scope 0).2 = b := by
          simpa using hb
        subst hbeq
        exact fillColumns_refines (pick k) (indep k) cols scope 0

theorem attemptLoop_attempts_le (tableName : String)
    (cols : List (String × FillKind)) (test : Nat → Bool)
    (pick : Nat → Nat → Nat) (indep : Nat → Nat → Option Val) :
    ∀ rem k scope,
      (attemptLoop tableName cols test pick indep rem k scope).attempts ≤
        rem := by
  intro rem
  induction rem with
  | zero => intro k scope; simp [attemptLoop]
  | succ rem ih =>
    intro k scope
    by_cases ht : test k
    · simp [attemptLoop, ht]
    · simp only [attemptLoop, ht, if_false, Bool.false_eq_true]
      exact Nat.succ_le_succ
        (ih (k + 1) (fillColumns (pick k) (indep k) cols scope 0).2)

theorem attemptLoop_success (tableName : String)
    (cols : List (String × FillKind)) (test : Nat → Bool)
    (pick : Nat → Nat → Nat) (indep : Nat → Nat → Option Val) :
    ∀ rem k d scope, d < rem → test (k + d) = true →
      (∀ j, j < d → test (k + j) = false) →
      (attemptLoop tableName cols test pick indep rem k
          scope).row.isSome ∧
        countInserts (attemptLoop tableName cols test pick indep rem k
          scope).events = 1 ∧
        (attemptLoop tableName cols test pick indep rem k
          scope).attempts = d + 1 := by
  intro rem
  induction rem with
  | zero => intro k d scope hd; exact absurd hd (by omega)
  | succ rem ih =>
    intro k d scope hd htest hbefore
    cases d with
    | zero =>
      have ht : test k = true := by simpa using htest
      simp [attemptLoop, ht, countInserts]
    | succ d =>
      have ht0 : test k = false := by
        simpa using hbefore 0 (by omega)
      have hrem : rem ≠ 0 := by omega
      have htest' : test (k + 1 + d) = true := by
        have : k + 1 + d = k + (d + 1) := by omega
        rw [this]
        exact htest
      have hbefore' : ∀ j, j < d → test (k + 1 + j) = false := by
        intro j hj
        have : k + 1 + j = k + (j + 1) := by omega
        rw [this]
        exact hbefore (j + 1) (by omega)
      have hrec := ih (k + 1) d
        (fillColumns (pick k) (indep k) cols scope 0).2 (by omega)
        htest' hbefore'
      simp only [attemptLoop, ht0, if_false, Bool.false_eq_true,
        if_neg hrem]
      refine ⟨hrec.1, ?_, ?_⟩
      · rw [countInserts_append, hrec.2.1]
        simp [countInserts]
      · rw [hrec.2.2]

theorem attemptLoop_failure (tableName : String)
    (cols : List (String × FillKind)) (test : Nat → Bool)
    (pick : Nat → Nat → Nat) (indep : Nat → Nat → Option Val) :
    ∀ rem k scope, (∀ j, j < rem → test (k + j) = false) →
      (attemptLoop tableName cols test pick indep rem k scope).row =
          none ∧
        countInserts (attemptLoop tableName cols test pick indep rem k
          scope).events = 0 ∧
        (attemptLoop tableName cols test pick indep rem k
          scope).attempts = rem ∧
        (1 ≤ rem → SynthEvent.exhaustLog
            (tableName ++ " failed: exhausted retry limit") ∈
          (attemptLoop tableName cols test pick indep rem k
            scope).events) := by
  intro rem
  induction rem with
  | zero =>
    intro k scope _
    refine ⟨rfl, rfl, rfl, ?_⟩
    intro h
    exact absurd h (by omega)
  | succ rem ih =>
    intro k scope hall
    have ht0 : test k = false := by simpa using hall 0 (by omega)
    have hall' : ∀ j, j < rem → test (k + 1 + j) = false := by
      intro j hj
      have : k + 1 + j = k + (j + 1) := by omega
      rw [this]
      exact hall (j + 1) (by omega)
    have hrec := ih (k + 1)
      (fillColumns (pick k) (indep k) cols scope 0).2 hall'
    by_cases hrem : rem = 0
    · subst hrem
      refine ⟨?_, ?_, ?_, fun _ => ?_⟩ <;>
        simp [attemptLoop, ht0, countInserts]
    · simp only [attemptLoop, ht0, if_false, Bool.false_eq_true,
        if_neg hrem]
      refine ⟨hrec.1, ?_, ?_, fun _ => ?_⟩
      · rw [countInserts_append, hrec.2.1]
        simp [countInserts]
      · rw [hrec.2.2.1]
      · have hmem := hrec.2.2.2 (by omega)
        simp only [List.mem_append, List.mem_singleton]
        exact Or.inr hmem

/-- C3 counterexample: one FK column in a unique index, two candidate
tuples, the test failing everywhere, two attempts.  The second attempt
does NOT start from a fresh scope seeded with both tuples: it starts
from the scope narrowed to `{a: 1}` by the first, failed attempt. -/
theorem C3_counterexample :
    (new_fake_row "t" c3cols c3seed (fun _ => false) (fun _ _ => 0)
        (fun _ _ => none) 2).attemptScopes =
      [c3seed, [("u", [[("a", (1 : Val))]])]] ∧
      ([("u", [[("a", (1 : Val))]])] : RowsSet) ≠ c3seed := by
  decide

/-- C3 amended: the `ConstraintSet` and the `ForeignScope` are built once
per `new_fake_row` call, BEFORE the retry loop: the first attempt starts
from the seeded scope, and each later attempt starts from the scope as
narrowed by its predecessor — every bucket only ever shrinks from one
attempt to the next. -/
theorem C3_scope_seeded_once_then_carried (tableName : String)
    (cols : List (String × FillKind)) (seed : RowsSet) (test : Nat → Bool)
    (pick : Nat → Nat → Nat) (indep : Nat → Nat → Option Val)
    (retries : Nat) (hret : 1 ≤ retries) :
    (new_fake_row tableName cols seed test pick indep
        retries).attemptScopes.head? = some seed ∧
      List.Chain' (fun a b => scopeRefines b a)
        (new_fake_row tableName cols seed test pick indep
          retries).attemptScopes :=
  ⟨attemptLoop_scopes_head tableName cols test pick indep retries 0 seed
      hret,
    attemptLoop_scopes_chain tableName cols test pick indep retries 0 seed⟩

/-- Witness for the amended C3 at the concrete two-attempt run. -/
theorem C3_scope_seeded_once_then_carried_witness :
    (new_fake_row "t" c3cols c3seed (fun _ => false) (fun _ _ => 0)
        (fun _ _ => none) 2).attemptScopes.head? = some c3seed ∧
      List.Chain' (fun a b => scopeRefines b a)
        (new_fake_row "t" c3cols c3seed (fun _ => false) (fun _ _ => 0)
          (fun _ _ => none) 2).attemptScopes :=
  C3_scope_seeded_once_then_carried "t" c3cols c3seed (fun _ => false)
    (fun _ _ => 0) (fun _ _ => none) 2 (by omega)

/-- C6: `new_fake_row` with retry budget R performs at most R attempts;
with the test first passing on attempt `d` it inserts exactly once,
returns a row, and stops right there; with the test failing on every
attempt it returns nil having inserted nothing, after logging
`<table> failed: exhausted retry limit`. -/
theorem C6_retry_budget_and_outcomes (tableName : String)
    (cols : List (String × FillKind)) (seed : RowsSet) (test : Nat → Bool)
    (pick : Nat → Nat → Nat) (indep : Nat → Nat → Option Val)
    (retries : Nat) :
    (new_fake_row tableName cols seed test pick indep retries).attempts ≤
        retries ∧
      (∀ d, d < retries → test d = true → (∀ j, j < d → test j = false) →
        (new_fake_row tableName cols seed test pick indep
            retries).row.isSome ∧
          countInserts (new_fake_row tableName cols seed test pick indep
            retries).events = 1 ∧
          (new_fake_row tableName cols seed test pick indep
            retries).attempts = d + 1) ∧
      ((∀ j, j < retries → test j = false) →
        (new_fake_row tableName cols seed test pick indep retries).row =
            none ∧
          countInserts (new_fake_row tableName cols seed test pick indep
            retries).events = 0 ∧
          (1 ≤ retries → SynthEvent.exhaustLog
              (tableName ++ " failed: exhausted retry limit") ∈
            (new_fake_row tableName cols seed test pick indep
              retries).events)) := by
  refine ⟨attemptLoop_attempts_le tableName cols test pick indep retries 0
    seed, ?_, ?_⟩
  · intro d hd ht hb
    have := attemptLoop_success tableName cols test pick indep retries 0 d
      seed hd (by simpa using ht) (fun j hj => by simpa using hb j hj)
    exact this
  · intro hall
    have := attemptLoop_failure tableName cols test pick indep retries 0
      seed (fun j hj => by simpa using hall j hj)
    exact ⟨this.1, this.2.1, this.2.2.2⟩

/-- Witness for C6 on the concrete all-failing two-attempt run. -/
theorem C6_witness :
    (new_fake_row "t" c3cols c3seed (fun _ => false) (fun _ _ => 0)
        (fun _ _ => none) 2).attempts ≤ 2 ∧
      (new_fake_row "t" c3cols c3seed (fun _ => false) (fun _ _ => 0)
        (fun _ _ => none) 2).row = none ∧
      countInserts (new_fake_row "t" c3cols c3seed (fun _ => false)
        (fun _ _ => 0) (fun _ _ => none) 2).events = 0 ∧
      SynthEvent.exhaustLog ("t" ++ " failed: exhausted retry limit") ∈
        (new_fake_row "t" c3cols c3seed (fun _ => false) (fun _ _ => 0)
          (fun _ _ => none) 2).events := by
  have h := C6_retry_budget_and_outcomes "t" c3cols c3seed
    (fun _ => false) (fun _ _ => 0) (fun _ _ => none) 2
  have h3 := h.2.2 (fun j _ => rfl)
  exact ⟨h.1, h3.1, h3.2.1, h3.2.2 (by omega)⟩

/-- C9 (the code violates the spec's intent): with column `a` assigned
scalar 5 and column `b` assigned scalar 7 in one definitions map, the
generation-time value for BOTH columns is 7 — the last scalar iterated —
because the stored lambda late-binds the loop variable. -/
theorem C9_scalar_defs_late_binding :
    scalarColumnValue c9defs "t" "a" = some (some 7) ∧
      scalarColumnValue c9defs "t" "b" = some (some 7) ∧
      some (some (7 : Val)) ≠ some (some (5 : Val)) := by
  decide

end Dancer
